import Mathlib

/-
Verification of the maro grass control-plane core:
- master_api_server blueprints (jobs.py, nodes.py): job/node CRUD, ticket queues, clean_jobs
- scripts/node/join_node.py: DeploymentValidator (validate_and_fill_dict and the
  deepdiff path decoder _get_parent_to_child_key_list)

The shared redis-backed store (RedisController) is not part of the excerpted
sources; its operations are modelled from the spec (section 4.2) and are marked
as such.  Everything else is translated from the Python sources.
-/

namespace Maro

/-- A JSON/YAML-like nested document: string and integer scalars and
string-keyed mappings (Python dicts, insertion ordered). -/
inductive Doc where
  | str (s : String)
  | int (n : Int)
  | map (entries : List (String × Doc))
deriving Repr

/-- Python dict lookup `d[k]` on an association list (first match wins;
Python dicts have unique keys, so first match is the only match). -/
def lookupKey (entries : List (String × Doc)) (k : String) : Option Doc :=
  match entries with
  | [] => none
  | (k', v) :: rest => if k' = k then some v else lookupKey rest k

/-- Python dict assignment `d[k] = v`: updates the entry in place if the key
exists, otherwise appends it (insertion order semantics). -/
def setKey (entries : List (String × Doc)) (k : String) (v : Doc) : List (String × Doc) :=
  match entries with
  | [] => [(k, v)]
  | (k', v') :: rest => if k' = k then (k, v) :: rest else (k', v') :: setKey rest k v

/-- Errors a Python execution of the modelled code can raise. -/
inductive PyError where
  | keyError (k : String)
  | typeError
  | indexError
  | validationError (msg : String)
deriving Repr, DecidableEq

/-- Python subscript `d[k]` on a document: a KeyError when the key is absent,
a TypeError when the document is not a mapping. -/
def getItem (d : Doc) (k : String) : Except PyError Doc :=
  match d with
  | .map es =>
    match lookupKey es k with
    | some v => .ok v
    | none => .error (.keyError k)
  | _ => .error .typeError

/-- A scalar document rendered as the string Python would use for a redis key
or an f-string interpolation.  Mapping-valued names are not modelled. -/
def scalarString (d : Doc) : Except PyError String :=
  match d with
  | .str s => .ok s
  | .int n => .ok (toString n)
  | .map _ => .error .typeError

/-- Modelled from the spec: the cluster state held by the shared store
(RedisController is not among the excerpted sources).  One Store is the
namespace of a single cluster: job records, node records, and the two FIFO
ticket queues (push appends at the tail). -/
structure Store where
  jobs : List (String × Doc)
  nodes : List (String × Doc)
  pendingJobTickets : List String
  killedJobTickets : List String
deriving Repr

/-- Modelled from the spec: point read of a job record; an absent key gives
an explicit not-found outcome (`none`), never a silent empty record. -/
def getJobDetails (s : Store) (jobName : String) : Option Doc :=
  lookupKey s.jobs jobName

/-- Modelled from the spec: point write of a job record keyed by name
(overwrite semantics). -/
def setJobDetails (s : Store) (jobName : String) (jobDetails : Doc) : Store :=
  { s with jobs := setKey s.jobs jobName jobDetails }

/-- Modelled from the spec: append a pending ticket (job name) to the
unbounded FIFO pending-jobs queue. -/
def pushPendingJobTicket (s : Store) (jobName : String) : Store :=
  { s with pendingJobTickets := s.pendingJobTickets ++ [jobName] }

/-- Modelled from the spec: remove the pending ticket(s) carrying the given
name — a name-matching filtered removal, not a pop of the head. -/
def removePendingJobTicket (s : Store) (jobName : String) : Store :=
  { s with pendingJobTickets := s.pendingJobTickets.filter (fun t => t ≠ jobName) }

/-- Modelled from the spec: append a killed ticket (job name) to the
killed-jobs queue. -/
def pushKilledJobTicket (s : Store) (jobName : String) : Store :=
  { s with killedJobTickets := s.killedJobTickets ++ [jobName] }

/-- Modelled from the spec: delete the pending-jobs queue structure outright
(queue identity reset, not pop-until-empty). -/
def deletePendingJobsQueue (s : Store) : Store :=
  { s with pendingJobTickets := [] }

/-- Modelled from the spec: delete the killed-jobs queue structure outright. -/
def deleteKilledJobsQueue (s : Store) : Store :=
  { s with killedJobTickets := [] }

/-- Modelled from the spec: point read of a node record; absent gives `none`. -/
def getNodeDetails (s : Store) (nodeName : String) : Option Doc :=
  lookupKey s.nodes nodeName

/-- Modelled from the spec: point write of a node record keyed by name
(overwrite semantics, no uniqueness check). -/
def setNodeDetails (s : Store) (nodeName : String) (nodeDetails : Doc) : Store :=
  { s with nodes := setKey s.nodes nodeName nodeDetails }

/-- Modelled from the spec: delete a node record. -/
def deleteNodeDetails (s : Store) (nodeName : String) : Store :=
  { s with nodes := s.nodes.filter (fun p => p.1 ≠ nodeName) }

/-- Modelled from the spec: full listing of node records, name to record. -/
def getNameToNodeDetails (s : Store) : List (String × Doc) :=
  s.nodes

/-- The service_config of the master API server process: cluster name and the
per-node agent api server port used by clean_jobs. -/
structure ServiceConfig where
  clusterName : String
  apiServerPort : Nat

/-- From jobs.py get_job: returns redis_controller.get_job_details for the
requested name. -/
def getJob (s : Store) (jobName : String) : Option Doc :=
  getJobDetails s jobName

/-- From jobs.py create_job: reads the posted body's "name" key, persists the
record under that name, then pushes a pending ticket for that name — in that
order.  The name subscript is evaluated before any store call, so a document
without a "name" key raises before any mutation. -/
def createJob (s : Store) (jobDetails : Doc) : Except PyError Store := do
  let nameDoc ← getItem jobDetails "name"
  let jobName ← scalarString nameDoc
  let s1 := setJobDetails s jobName jobDetails
  let s2 := pushPendingJobTicket s1 jobName
  return s2

/-- From jobs.py delete_job: removes the pending ticket for the name, then
pushes a killed ticket for it.  It never touches the job record. -/
def deleteJob (s : Store) (jobName : String) : Store :=
  pushKilledJobTicket (removePendingJobTicket s jobName) jobName

/-- The per-node agent deletion endpoint used by clean_jobs:
DELETE http://{node_private_ip}:{api_server_port}/containers/{container_name}. -/
def containerDeleteUrl (nodePrivateIp : String) (apiServerPort : Nat) (containerName : String) : String :=
  "http://" ++ nodePrivateIp ++ ":" ++ toString apiServerPort ++ "/containers/" ++ containerName

/-- From jobs.py clean_jobs inner loop body: for one node record, read its
private_ip_address and containers mapping and produce one deletion request
URL per container. -/
def nodeCleanRequests (apiServerPort : Nat) (nodeDetails : Doc) : Except PyError (List String) := do
  let ipDoc ← getItem nodeDetails "private_ip_address"
  let ip ← scalarString ipDoc
  let containersDoc ← getItem nodeDetails "containers"
  match containersDoc with
  | .map cs => return cs.map (fun c => containerDeleteUrl ip apiServerPort c.1)
  | _ => .error .typeError

/-- From jobs.py clean_jobs outer loop: iterate the known nodes in order,
issuing each node's container deletion requests; a malformed node record
aborts the loop with the Python error (requests already issued stand). -/
def collectCleanRequests (apiServerPort : Nat) : List (String × Doc) → List String × Option PyError
  | [] => ([], none)
  | (_, nd) :: rest =>
    match nodeCleanRequests apiServerPort nd with
    | .error e => ([], some e)
    | .ok urls =>
      let res := collectCleanRequests apiServerPort rest
      (urls ++ res.1, res.2)

/-- From jobs.py clean_jobs: delete the pending-jobs queue, delete the
killed-jobs queue, then fan out one deletion request per container per known
node.  Returns the resulting store, the issued request URLs in order, and the
Python error, if any, raised while iterating the nodes. -/
def cleanJobs (cfg : ServiceConfig) (s : Store) : Store × List String × Option PyError :=
  let s2 := deleteKilledJobsQueue (deletePendingJobsQueue s)
  (s2, collectCleanRequests cfg.apiServerPort (getNameToNodeDetails s2))

/-- From nodes.py get_node: returns redis_controller.get_node_details for the
requested name. -/
def getNode (s : Store) (nodeName : String) : Option Doc :=
  getNodeDetails s nodeName

/-- From nodes.py create_node: reads the posted body's "name" key and persists
the record under that name.  No uniqueness check: an existing record for the
name is overwritten. -/
def createNode (s : Store) (nodeDetails : Doc) : Except PyError Store := do
  let nameDoc ← getItem nodeDetails "name"
  let nodeName ← scalarString nameDoc
  return setNodeDetails s nodeName nodeDetails

/-- From nodes.py delete_node: removes the node record. -/
def deleteNode (s : Store) (nodeName : String) : Store :=
  deleteNodeDetails s nodeName

/-- The character set of Python str.strip("root['"). -/
def stripSetRoot : List Char := "root['".toList

/-- The character set of Python str.strip("']"). -/
def stripSetEnd : List Char := "']".toList

/-- The separator "']['" used by _get_parent_to_child_key_list's split. -/
def pathSep : List Char := "']['".toList

/-- The single-quote character, fetched from a string literal. -/
def quoteChar : Char := "'".toList.headD 'x'

/-- Drop leading characters belonging to the given set (Python lstrip). -/
def leftTrim (chars : List Char) (l : List Char) : List Char :=
  l.dropWhile (fun c => chars.contains c)

/-- Drop trailing characters belonging to the given set (Python rstrip). -/
def rightTrim (chars : List Char) (l : List Char) : List Char :=
  (leftTrim chars l.reverse).reverse

/-- Python str.strip(chars): remove characters of the set from both ends. -/
def pyStrip (chars : List Char) (l : List Char) : List Char :=
  rightTrim chars (leftTrim chars l)

/-- Index of the first occurrence of sep as a contiguous sublist, if any. -/
def findSub (sep : List Char) : List Char → Option Nat
  | [] => if sep.isEmpty then some 0 else none
  | c :: rest =>
    if sep.isPrefixOf (c :: rest) then some 0
    else (findSub sep rest).map (fun i => i + 1)

/-- Fuel-driven worker for splitOnSeq; the fuel never runs out when it starts
at the length of the list and sep is nonempty. -/
def splitOnAux (sep : List Char) : Nat → List Char → List (List Char)
  | 0, l => [l]
  | fuel + 1, l =>
    match findSub sep l with
    | none => [l]
    | some i => l.take i :: splitOnAux sep fuel (l.drop (i + sep.length))

/-- Python str.split(sep) for a nonempty separator: non-overlapping,
left-to-right splitting. -/
def splitOnSeq (sep l : List Char) : List (List Char) :=
  if sep.isEmpty then [l] else splitOnAux sep l.length l

/-- From join_node.py DeploymentValidator._get_parent_to_child_key_list,
on character lists: strip("root['"), then strip("']"), then split("']['"). -/
def getParentToChildKeyListChars (s : List Char) : List (List Char) :=
  splitOnSeq pathSep (pyStrip stripSetEnd (pyStrip stripSetRoot s))

/-- From join_node.py DeploymentValidator._get_parent_to_child_key_list:
decode a deepdiff key-path string back to a parent-to-child key list. -/
def getParentToChildKeyList (s : String) : List String :=
  (getParentToChildKeyListChars s.toList).map (fun l => String.mk l)

/-- The deepdiff string representation of a missing key path:
"root" followed by one "['k']" segment per key. -/
def encodeDeepDiffStr (p : List String) : String :=
  "root" ++ String.join (p.map (fun k => "['" ++ k ++ "']"))

/-- The deepdiff single-key path encoding on character lists:
"root['" ++ key ++ "']" (stripSetRoot and stripSetEnd are exactly the
character lists of "root['" and "']"). -/
def encodeKeyChars (k : List Char) : List Char :=
  stripSetRoot ++ (k ++ stripSetEnd)

/-- Navigation functools.reduce(operator.getitem, key_list, original_dict):
successive subscripts along a key path. -/
def getSub (d : Doc) : List String → Except PyError Doc
  | [] => .ok d
  | k :: rest => do
    let sub ← getItem d k
    getSub sub rest

/-- From join_node.py DeploymentValidator._set_value: navigate to the parent
of the last key with successive subscripts, then assign the value at the last
key.  A missing intermediate key raises KeyError, a non-mapping intermediate
raises TypeError, and an empty key list raises IndexError, exactly as reduce
plus item assignment would in Python.  The tree is rebuilt along the path,
which models Python's in-place mutation of the aliased sub-dicts. -/
def setValuePy (d : Doc) : List String → Doc → Except PyError Doc
  | [], _ => .error .indexError
  | [k], v =>
    match d with
    | .map es => .ok (.map (setKey es k v))
    | _ => .error .typeError
  | k :: k2 :: rest, v =>
    match d with
    | .map es =>
      match lookupKey es k with
      | some sub => (setValuePy sub (k2 :: rest) v).map (fun sub2 => Doc.map (setKey es k sub2))
      | none => .error (.keyError k)
    | _ => .error .typeError

mutual
/-- The dictionary_item_removed part of deepdiff.DeepDiff(template, actual):
key paths present in the template but absent from the actual document.
Recursion descends only where both sides are mappings; a key present on both
sides whose template value is a mapping but whose actual value is not is a
type change, which is reported under type_changes, not here. -/
def missingPaths (pre : List String) : Doc → Doc → List (List String)
  | .map ts, .map as_ => missingPathsList pre ts as_
  | _, _ => []

/-- Worker for missingPaths: iterate the template entries in order. -/
def missingPathsList (pre : List String) : List (String × Doc) → List (String × Doc) → List (List String)
  | [], _ => []
  | (k, tv) :: rest, as_ =>
    (match lookupKey as_ k with
     | none => [pre ++ [k]]
     | some av => missingPaths (pre ++ [k]) tv av) ++ missingPathsList pre rest as_
end

/-- From join_node.py validate_and_fill_dict's loop over the deepdiff
missing-key strings: a missing path not listed among the optional keys raises
the "Key ... not found." exception naming the deepdiff string; a listed one
has its default set at the decoded key list, and the loop continues on the
mutated document. -/
def applyMissing (optionalKeyToValue : List (String × Doc)) : List (List String) → Doc → Except PyError Doc
  | [], a => .ok a
  | p :: rest, a =>
    match lookupKey optionalKeyToValue (encodeDeepDiffStr p) with
    | none => .error (.validationError (encodeDeepDiffStr p))
    | some v => do
      let a2 ← setValuePy a (getParentToChildKeyList (encodeDeepDiffStr p)) v
      applyMissing optionalKeyToValue rest a2

/-- From join_node.py DeploymentValidator.validate_and_fill_dict: compute the
deepdiff missing-key paths of the actual document against the template, then
process them in order (raise on a non-optional one, set the default for an
optional one).  Returns the final document in place of Python's in-place
mutation. -/
def validateAndFillDict (templateDict actualDict : Doc) (optionalKeyToValue : List (String × Doc)) : Except PyError Doc :=
  applyMissing optionalKeyToValue (missingPaths [] templateDict actualDict) actualDict

/-- The join-node deployment template from
NodeInitializer.standardize_join_node_deployment. -/
def joinNodeDeploymentTemplate : Doc :=
  .map [
    ("mode", .str ""),
    ("master", .map [("hostname", .str "")]),
    ("node", .map [
      ("hostname", .str ""),
      ("public_ip_address", .str ""),
      ("private_ip_address", .str ""),
      ("resources", .map [("cpu", .str ""), ("memory", .str ""), ("gpu", .str "")])]),
    ("connection", .map [("api_server", .map [("port", .str "")])])]

/-- u is an initial segment of l. -/
def listIsPre (u l : List String) : Prop :=
  ∃ r, l = u ++ r

/-- Projection used to state clean_jobs fan-out: the private_ip_address field
of a well-formed node record. -/
def nodePrivateIp (nd : Doc) : String :=
  match getItem nd "private_ip_address" with
  | .ok (.str s) => s
  | _ => ""

/-- Projection used to state clean_jobs fan-out: the container names recorded
on a well-formed node record, in order. -/
def nodeContainerNames (nd : Doc) : List String :=
  match getItem nd "containers" with
  | .ok (.map cs) => cs.map (fun c => c.1)
  | _ => []

theorem lookupKey_setKey_self (es : List (String × Doc)) (k : String) (v : Doc) :
    lookupKey (setKey es k v) k = some v := by
  induction es with
  | nil => simp [setKey, lookupKey]
  | cons e rest ih =>
    obtain ⟨k', v'⟩ := e
    by_cases h : k' = k
    · simp [setKey, h, lookupKey]
    · simp [setKey, h, lookupKey, ih]

theorem lookupKey_setKey_ne (es : List (String × Doc)) (k k' : String) (v : Doc)
    (h : k' ≠ k) : lookupKey (setKey es k v) k' = lookupKey es k' := by
  have hk : k ≠ k' := fun hh => h hh.symm
  induction es with
  | nil => simp [setKey, lookupKey, hk]
  | cons e rest ih =>
    obtain ⟨k0, v0⟩ := e
    by_cases h0 : k0 = k
    · subst h0
      simp [setKey, lookupKey, hk]
    · simp [setKey, h0, lookupKey, ih]

theorem listIsPre_nil_left (l : List String) : listIsPre [] l :=
  ⟨l, rfl⟩

theorem listIsPre_cons_cons (j k : String) (u l : List String) :
    listIsPre (j :: u) (k :: l) ↔ j = k ∧ listIsPre u l := by
  constructor
  · rintro ⟨r, hr⟩
    rw [List.cons_append] at hr
    cases hr
    exact ⟨rfl, ⟨r, rfl⟩⟩
  · rintro ⟨rfl, r, rfl⟩
    exact ⟨r, rfl⟩

theorem dropLast_append_single (l : List String) (c : String) : (l ++ [c]).dropLast = l := by
  simp

theorem listIsPre_concat_cases (u q : List String) (k : String)
    (h : listIsPre u (q ++ [k])) : u = q ++ [k] ∨ listIsPre u q := by
  obtain ⟨r, hr⟩ := h
  rcases List.eq_nil_or_concat r with rfl | ⟨r', c, rfl⟩
  · left
    rw [hr, List.append_nil]
  · right
    rw [List.concat_eq_append, ← List.append_assoc] at hr
    have h2 := List.append_inj' hr rfl
    exact ⟨r', h2.1⟩

theorem getItem_map_ok (es : List (String × Doc)) (k : String) (v : Doc) :
    getItem (.map es) k = .ok v ↔ lookupKey es k = some v := by
  cases h : lookupKey es k <;> simp [getItem, h]

theorem getSub_cons (d : Doc) (k : String) (rest : List String) :
    getSub d (k :: rest) = (getItem d k).bind (fun sub => getSub sub rest) := rfl

theorem getSub_append (u : List String) : ∀ (r : List String) (d : Doc),
    getSub d (u ++ r) = (getSub d u).bind (fun x => getSub x r) := by
  induction u with
  | nil =>
    intro r d
    rfl
  | cons k u' ih =>
    intro r d
    rw [List.cons_append, getSub_cons, getSub_cons]
    cases h : getItem d k with
    | error e => rfl
    | ok sub =>
      show getSub sub (u' ++ r) = (getSub sub u').bind (fun x => getSub x r)
      exact ih r sub

theorem setValuePy_single_map (es : List (String × Doc)) (k : String) (v : Doc) :
    setValuePy (.map es) [k] v = .ok (.map (setKey es k v)) := rfl

theorem setValuePy_cons_cons_map (es : List (String × Doc)) (k k2 : String)
    (rest : List String) (v : Doc) :
    setValuePy (.map es) (k :: k2 :: rest) v =
      (match lookupKey es k with
       | some sub => (setValuePy sub (k2 :: rest) v).map (fun s2 => Doc.map (setKey es k s2))
       | none => .error (.keyError k)) := rfl

theorem setValuePy_ok_of_parent (q : List String) (k : String) (v : Doc) :
    ∀ (d : Doc) (es : List (String × Doc)), getSub d q = .ok (.map es) →
    ∃ d2, setValuePy d (q ++ [k]) v = .ok d2 := by
  induction q with
  | nil =>
    intro d es h
    simp only [getSub, Except.ok.injEq] at h
    subst h
    exact ⟨.map (setKey es k v), rfl⟩
  | cons k0 q' ih =>
    intro d es h
    rw [getSub_cons] at h
    cases hg : getItem d k0 with
    | error e =>
      rw [hg] at h
      exact absurd h (by simp [Except.bind])
    | ok sub =>
      rw [hg] at h
      replace h : getSub sub q' = .ok (.map es) := h
      obtain ⟨sub2, hset⟩ := ih sub es h
      cases d with
      | str s => exact absurd hg (by simp [getItem])
      | int n => exact absurd hg (by simp [getItem])
      | map es0 =>
        have hlook : lookupKey es0 k0 = some sub := (getItem_map_ok es0 k0 sub).mp hg
        obtain ⟨k2, rest2, hq⟩ : ∃ k2 rest2, q' ++ [k] = k2 :: rest2 := by
          cases q' with
          | nil => exact ⟨k, [], rfl⟩
          | cons a b => exact ⟨a, b ++ [k], rfl⟩
        refine ⟨.map (setKey es0 k0 sub2), ?_⟩
        rw [List.cons_append, hq, setValuePy_cons_cons_map]
        rw [hq] at hset
        simp only [hlook, hset]
        rfl

theorem setValuePy_getSub_self : ∀ (ks : List String) (d d2 v : Doc),
    setValuePy d ks v = .ok d2 → getSub d2 ks = .ok v := by
  intro ks
  induction ks with
  | nil =>
    intro d d2 v h
    exact absurd h (by simp [setValuePy])
  | cons k tail ih =>
    intro d d2 v h
    cases tail with
    | nil =>
      cases d with
      | str s => exact absurd h (by simp [setValuePy])
      | int n => exact absurd h (by simp [setValuePy])
      | map es =>
        rw [setValuePy_single_map] at h
        injection h with hh
        subst hh
        rw [getSub_cons]
        simp [getItem, lookupKey_setKey_self, getSub, Except.bind]
    | cons k2 rest =>
      cases d with
      | str s => exact absurd h (by simp [setValuePy])
      | int n => exact absurd h (by simp [setValuePy])
      | map es =>
        rw [setValuePy_cons_cons_map] at h
        cases hlook : lookupKey es k with
        | none =>
          simp only [hlook] at h
          exact Except.noConfusion h
        | some sub =>
          simp only [hlook] at h
          cases hset : setValuePy sub (k2 :: rest) v with
          | error e =>
            rw [hset] at h
            exact absurd h (by simp [Except.map])
          | ok sub2 =>
            rw [hset] at h
            replace h : Except.ok (Doc.map (setKey es k sub2)) = Except.ok d2 := h
            injection h with hh
            subst hh
            rw [getSub_cons]
            have hgi : getItem (Doc.map (setKey es k sub2)) k = .ok sub2 :=
              (getItem_map_ok _ k sub2).mpr (lookupKey_setKey_self es k sub2)
            rw [hgi]
            exact ih sub sub2 v hset

theorem setValuePy_preserves_mapAt : ∀ (ks : List String) (d d2 v : Doc) (q : List String)
    (es : List (String × Doc)),
    setValuePy d ks v = .ok d2 → ¬ listIsPre ks q → getSub d q = .ok (.map es) →
    ∃ es2, getSub d2 q = .ok (.map es2) := by
  intro ks
  induction ks with
  | nil =>
    intro d d2 v q es h _ _
    exact absurd h (by simp [setValuePy])
  | cons k tail ih =>
    intro d d2 v q es h hpre hq
    cases tail with
    | nil =>
      cases d with
      | str s => exact absurd h (by simp [setValuePy])
      | int n => exact absurd h (by simp [setValuePy])
      | map es0 =>
        rw [setValuePy_single_map] at h
        injection h with hh
        subst hh
        cases q with
        | nil => exact ⟨setKey es0 k v, rfl⟩
        | cons j q' =>
          have hj : j ≠ k := by
            intro hh2
            subst hh2
            exact hpre ((listIsPre_cons_cons j j [] q').mpr ⟨rfl, listIsPre_nil_left q'⟩)
          rw [getSub_cons] at hq ⊢
          have hgi : getItem (Doc.map (setKey es0 k v)) j = getItem (Doc.map es0) j := by
            simp [getItem, lookupKey_setKey_ne es0 k j v hj]
          rw [hgi]
          exact ⟨es, hq⟩
    | cons k2 rest =>
      cases d with
      | str s => exact absurd h (by simp [setValuePy])
      | int n => exact absurd h (by simp [setValuePy])
      | map es0 =>
        rw [setValuePy_cons_cons_map] at h
        cases hlook : lookupKey es0 k with
        | none =>
          simp only [hlook] at h
          exact Except.noConfusion h
        | some sub =>
          simp only [hlook] at h
          cases hset : setValuePy sub (k2 :: rest) v with
          | error e =>
            rw [hset] at h
            exact absurd h (by simp [Except.map])
          | ok sub2 =>
            rw [hset] at h
            replace h : Except.ok (Doc.map (setKey es0 k sub2)) = Except.ok d2 := h
            injection h with hh
            subst hh
            cases q with
            | nil => exact ⟨setKey es0 k sub2, rfl⟩
            | cons j q' =>
              by_cases hj : j = k
              · subst hj
                have hpre' : ¬ listIsPre (k2 :: rest) q' := by
                  intro hh
                  exact hpre ((listIsPre_cons_cons j j (k2 :: rest) q').mpr ⟨rfl, hh⟩)
                rw [getSub_cons] at hq ⊢
                rw [(getItem_map_ok es0 j sub).mpr hlook] at hq
                have hgi2 : getItem (Doc.map (setKey es0 j sub2)) j = .ok sub2 :=
                  (getItem_map_ok _ j sub2).mpr (lookupKey_setKey_self es0 j sub2)
                rw [hgi2]
                exact ih sub sub2 v q' es hset hpre' hq
              · rw [getSub_cons] at hq ⊢
                have hgi : getItem (Doc.map (setKey es0 k sub2)) j = getItem (Doc.map es0) j := by
                  simp [getItem, lookupKey_setKey_ne es0 k j sub2 hj]
                rw [hgi]
                exact ⟨es, hq⟩

theorem setValuePy_preserves_getSub : ∀ (ks : List String) (d d2 v : Doc) (q : List String),
    setValuePy d ks v = .ok d2 → ¬ listIsPre ks q → ¬ listIsPre q ks →
    getSub d2 q = getSub d q := by
  intro ks
  induction ks with
  | nil =>
    intro d d2 v q h _ _
    exact absurd h (by simp [setValuePy])
  | cons k tail ih =>
    intro d d2 v q h hpre1 hpre2
    cases tail with
    | nil =>
      cases d with
      | str s => exact absurd h (by simp [setValuePy])
      | int n => exact absurd h (by simp [setValuePy])
      | map es0 =>
        rw [setValuePy_single_map] at h
        injection h with hh
        subst hh
        cases q with
        | nil => exact absurd (listIsPre_nil_left [k]) hpre2
        | cons j q' =>
          have hj : j ≠ k := by
            intro hh2
            subst hh2
            exact hpre1 ((listIsPre_cons_cons j j [] q').mpr ⟨rfl, listIsPre_nil_left q'⟩)
          rw [getSub_cons, getSub_cons]
          have hgi : getItem (Doc.map (setKey es0 k v)) j = getItem (Doc.map es0) j := by
            simp [getItem, lookupKey_setKey_ne es0 k j v hj]
          rw [hgi]
    | cons k2 rest =>
      cases d with
      | str s => exact absurd h (by simp [setValuePy])
      | int n => exact absurd h (by simp [setValuePy])
      | map es0 =>
        rw [setValuePy_cons_cons_map] at h
        cases hlook : lookupKey es0 k with
        | none =>
          simp only [hlook] at h
          exact Except.noConfusion h
        | some sub =>
          simp only [hlook] at h
          cases hset : setValuePy sub (k2 :: rest) v with
          | error e =>
            rw [hset] at h
            exact absurd h (by simp [Except.map])
          | ok sub2 =>
            rw [hset] at h
            replace h : Except.ok (Doc.map (setKey es0 k sub2)) = Except.ok d2 := h
            injection h with hh
            subst hh
            cases q with
            | nil => exact absurd (listIsPre_nil_left (k :: k2 :: rest)) hpre2
            | cons j q' =>
              by_cases hj : j = k
              · subst hj
                have h1 : ¬ listIsPre (k2 :: rest) q' := by
                  intro hh
                  exact hpre1 ((listIsPre_cons_cons j j (k2 :: rest) q').mpr ⟨rfl, hh⟩)
                have h2 : ¬ listIsPre q' (k2 :: rest) := by
                  intro hh
                  exact hpre2 ((listIsPre_cons_cons j j q' (k2 :: rest)).mpr ⟨rfl, hh⟩)
                rw [getSub_cons, getSub_cons]
                rw [(getItem_map_ok es0 j sub).mpr hlook]
                have hgi2 : getItem (Doc.map (setKey es0 j sub2)) j = .ok sub2 :=
                  (getItem_map_ok _ j sub2).mpr (lookupKey_setKey_self es0 j sub2)
                rw [hgi2]
                show getSub sub2 q' = getSub sub q'
                exact ih sub sub2 v q' hset h1 h2
              · rw [getSub_cons, getSub_cons]
                have hgi : getItem (Doc.map (setKey es0 k sub2)) j = getItem (Doc.map es0) j := by
                  simp [getItem, lookupKey_setKey_ne es0 k j sub2 hj]
                rw [hgi]

/-- Claim C1: for a job-details document carrying a "name" key, create_job
first persists the record under that name and then pushes exactly one pending
ticket carrying the name, in that fixed order (record before ticket); a
subsequent get_job for the name returns a record equal to the posted one. -/
theorem create_job_persists_record_then_ticket (s : Store) (J : Doc) (n : String)
    (h : getItem J "name" = .ok (.str n)) :
    createJob s J = .ok (pushPendingJobTicket (setJobDetails s n J) n) ∧
    getJob (pushPendingJobTicket (setJobDetails s n J) n) n = some J ∧
    (pushPendingJobTicket (setJobDetails s n J) n).pendingJobTickets =
      s.pendingJobTickets ++ [n] := by
  refine ⟨?_, ?_, rfl⟩
  · simp only [createJob, h]
    rfl
  · simp [getJob, getJobDetails, pushPendingJobTicket, setJobDetails, lookupKey_setKey_self]

theorem create_job_persists_record_then_ticket_witness :
    getItem (Doc.map [("name", Doc.str "j1")]) "name" = .ok (.str "j1") ∧
    createJob ⟨[], [], [], []⟩ (Doc.map [("name", Doc.str "j1")]) =
      .ok (pushPendingJobTicket
        (setJobDetails ⟨[], [], [], []⟩ "j1" (Doc.map [("name", Doc.str "j1")])) "j1") :=
  ⟨rfl, (create_job_persists_record_then_ticket ⟨[], [], [], []⟩
    (Doc.map [("name", Doc.str "j1")]) "j1" rfl).1⟩

/-- Claim C2: delete_job removes every pending ticket carrying the name by a
name-matching filtered removal, pushes exactly one killed ticket carrying it,
and leaves the job records (and node records) untouched; being a total
function of the store it succeeds even when no pending ticket for the name
exists. -/
theorem delete_job_filters_pending_pushes_killed (s : Store) (n : String) :
    (deleteJob s n).pendingJobTickets = s.pendingJobTickets.filter (fun t => t ≠ n) ∧
    (deleteJob s n).killedJobTickets = s.killedJobTickets ++ [n] ∧
    (deleteJob s n).jobs = s.jobs ∧
    (deleteJob s n).nodes = s.nodes :=
  ⟨rfl, rfl, rfl, rfl⟩

theorem collectCleanRequests_ok (port : Nat) (nodes : List (String × Doc))
    (h : ∀ p ∈ nodes, (∃ ip, getItem p.2 "private_ip_address" = .ok (.str ip)) ∧
      (∃ cs, getItem p.2 "containers" = .ok (.map cs))) :
    collectCleanRequests port nodes =
      (nodes.flatMap (fun p => (nodeContainerNames p.2).map
        (fun c => containerDeleteUrl (nodePrivateIp p.2) port c)), none) := by
  induction nodes with
  | nil => rfl
  | cons p rest ih =>
    obtain ⟨nm, nd⟩ := p
    obtain ⟨⟨ip, hip⟩, ⟨cs, hcs⟩⟩ := h (nm, nd) (List.mem_cons_self _ _)
    have hreq : nodeCleanRequests port nd = .ok (cs.map (fun c => containerDeleteUrl ip port c.1)) := by
      simp only [nodeCleanRequests, hip, hcs]
      rfl
    have hip' : nodePrivateIp nd = ip := by simp [nodePrivateIp, hip]
    have hcs' : nodeContainerNames nd = cs.map (fun c => c.1) := by simp [nodeContainerNames, hcs]
    have ih' := ih (fun q hq => h q (List.mem_cons_of_mem _ hq))
    simp [collectCleanRequests, hreq, ih', hip', hcs', List.map_map, Function.comp]

/-- Claim C3: clean_jobs leaves both ticket queues empty (the queue
structures are deleted outright) for every prior queue content, and issues
exactly one container-deletion request, at the node agent url, for every
container recorded on every known node, provided every node record carries a
private_ip_address string and a containers mapping. -/
theorem clean_jobs_drains_queues_and_requests_all_containers
    (cfg : ServiceConfig) (s : Store)
    (h : ∀ p ∈ s.nodes, (∃ ip, getItem p.2 "private_ip_address" = .ok (.str ip)) ∧
      (∃ cs, getItem p.2 "containers" = .ok (.map cs))) :
    (cleanJobs cfg s).1.pendingJobTickets = [] ∧
    (cleanJobs cfg s).1.killedJobTickets = [] ∧
    (cleanJobs cfg s).2 =
      (s.nodes.flatMap (fun p => (nodeContainerNames p.2).map
        (fun c => containerDeleteUrl (nodePrivateIp p.2) cfg.apiServerPort c)),
       (none : Option PyError)) := by
  refine ⟨rfl, rfl, ?_⟩
  have heq : (cleanJobs cfg s).2 = collectCleanRequests cfg.apiServerPort s.nodes := rfl
  rw [heq, collectCleanRequests_ok cfg.apiServerPort s.nodes h]

theorem clean_jobs_drains_queues_and_requests_all_containers_witness :
    (∀ p ∈ ([("n1", Doc.map [("name", Doc.str "n1"), ("private_ip_address", Doc.str "10.0.0.1"),
        ("containers", Doc.map [("cont1", Doc.map [])])])] : List (String × Doc)),
      (∃ ip, getItem p.2 "private_ip_address" = .ok (.str ip)) ∧
      (∃ cs, getItem p.2 "containers" = .ok (.map cs))) ∧
    (cleanJobs ⟨"c1", 9090⟩
      ⟨[("j1", Doc.map [])],
       [("n1", Doc.map [("name", Doc.str "n1"), ("private_ip_address", Doc.str "10.0.0.1"),
          ("containers", Doc.map [("cont1", Doc.map [])])])],
       ["j1"], ["j2"]⟩).1.pendingJobTickets = [] := by
  have h : ∀ p ∈ ([("n1", Doc.map [("name", Doc.str "n1"), ("private_ip_address", Doc.str "10.0.0.1"),
        ("containers", Doc.map [("cont1", Doc.map [])])])] : List (String × Doc)),
      (∃ ip, getItem p.2 "private_ip_address" = .ok (.str ip)) ∧
      (∃ cs, getItem p.2 "containers" = .ok (.map cs)) := by
    intro p hp
    simp only [List.mem_singleton] at hp
    subst hp
    exact ⟨⟨"10.0.0.1", rfl⟩, ⟨[("cont1", Doc.map [])], rfl⟩⟩
  exact ⟨h, (clean_jobs_drains_queues_and_requests_all_containers ⟨"c1", 9090⟩
    ⟨[("j1", Doc.map [])],
     [("n1", Doc.map [("name", Doc.str "n1"), ("private_ip_address", Doc.str "10.0.0.1"),
        ("containers", Doc.map [("cont1", Doc.map [])])])],
     ["j1"], ["j2"]⟩ h).1⟩

/-- Claim C7: create_node twice with the same name succeeds both times with
no uniqueness error, and the stored record for the name afterwards equals the
second document (overwrite semantics). -/
theorem create_node_overwrites_existing (s : Store) (N N' : Doc) (n : String)
    (h1 : getItem N "name" = .ok (.str n)) (h2 : getItem N' "name" = .ok (.str n)) :
    createNode s N = .ok (setNodeDetails s n N) ∧
    createNode (setNodeDetails s n N) N' = .ok (setNodeDetails (setNodeDetails s n N) n N') ∧
    getNode (setNodeDetails (setNodeDetails s n N) n N') n = some N' := by
  refine ⟨?_, ?_, ?_⟩
  · simp only [createNode, h1]
    rfl
  · simp only [createNode, h2]
    rfl
  · simp [getNode, getNodeDetails, setNodeDetails, lookupKey_setKey_self]

theorem create_node_overwrites_existing_witness :
    getItem (Doc.map [("name", Doc.str "n1"), ("hostname", Doc.str "h1")]) "name" = .ok (.str "n1") ∧
    getItem (Doc.map [("name", Doc.str "n1"), ("hostname", Doc.str "h2")]) "name" = .ok (.str "n1") ∧
    getNode (setNodeDetails
        (setNodeDetails ⟨[], [], [], []⟩ "n1" (Doc.map [("name", Doc.str "n1"), ("hostname", Doc.str "h1")]))
        "n1" (Doc.map [("name", Doc.str "n1"), ("hostname", Doc.str "h2")])) "n1" =
      some (Doc.map [("name", Doc.str "n1"), ("hostname", Doc.str "h2")]) :=
  ⟨rfl, rfl, (create_node_overwrites_existing ⟨[], [], [], []⟩
    (Doc.map [("name", Doc.str "n1"), ("hostname", Doc.str "h1")])
    (Doc.map [("name", Doc.str "n1"), ("hostname", Doc.str "h2")]) "n1" rfl rfl).2.2⟩

/-- Claim C8: get_job and get_node on a name with no record surface the
explicit not-found outcome (`none`, the 404-equivalent result), never a
silent empty record. -/
theorem get_unknown_job_and_node_not_found (s : Store) (n : String)
    (hj : lookupKey s.jobs n = none) (hn : lookupKey s.nodes n = none) :
    getJob s n = none ∧ getNode s n = none :=
  ⟨hj, hn⟩

theorem get_unknown_job_and_node_not_found_witness :
    lookupKey ([("j1", Doc.map [])] : List (String × Doc)) "zz" = none ∧
    getJob ⟨[("j1", Doc.map [])], [("n1", Doc.map [])], [], []⟩ "zz" = none ∧
    getNode ⟨[("j1", Doc.map [])], [("n1", Doc.map [])], [], []⟩ "zz" = none := by
  refine ⟨rfl, ?_⟩
  exact get_unknown_job_and_node_not_found
    ⟨[("j1", Doc.map [])], [("n1", Doc.map [])], [], []⟩ "zz" rfl rfl

/-- Claim C9: create_job on a posted document without a "name" key fails on
the name subscript before any store call, so the resulting computation is the
error alone and neither the job records nor the pending queue are changed. -/
theorem create_job_without_name_leaves_state_unchanged (s : Store) (J : Doc) (e : PyError)
    (h : getItem J "name" = .error e) :
    createJob s J = .error e := by
  simp only [createJob, h]
  rfl

theorem create_job_without_name_leaves_state_unchanged_witness :
    getItem (Doc.map [("k", Doc.str "v")]) "name" = .error (.keyError "name") ∧
    createJob ⟨[("j0", Doc.map [])], [], ["t0"], []⟩ (Doc.map [("k", Doc.str "v")]) =
      .error (.keyError "name") :=
  ⟨rfl, create_job_without_name_leaves_state_unchanged
    ⟨[("j0", Doc.map [])], [], ["t0"], []⟩ (Doc.map [("k", Doc.str "v")]) (.keyError "name") rfl⟩

mutual
theorem missingPaths_shape (pre : List String) (t a : Doc) (p : List String)
    (hp : p ∈ missingPaths pre t a) :
    ∃ q k es, p = pre ++ (q ++ [k]) ∧ getSub a q = .ok (.map es) ∧ lookupKey es k = none := by
  cases t with
  | str s => simp [missingPaths] at hp
  | int n => simp [missingPaths] at hp
  | map ts =>
    cases a with
    | str s => simp [missingPaths] at hp
    | int n => simp [missingPaths] at hp
    | map as_ =>
      exact missingPathsList_shape pre ts as_ p (by simpa [missingPaths] using hp)

theorem missingPathsList_shape (pre : List String) (ts as_ : List (String × Doc)) (p : List String)
    (hp : p ∈ missingPathsList pre ts as_) :
    ∃ q k es, p = pre ++ (q ++ [k]) ∧ getSub (Doc.map as_) q = .ok (.map es) ∧
      lookupKey es k = none := by
  cases ts with
  | nil => simp [missingPathsList] at hp
  | cons e rest =>
    obtain ⟨k0, tv⟩ := e
    simp only [missingPathsList] at hp
    rcases List.mem_append.mp hp with h | h
    · cases hlook : lookupKey as_ k0 with
      | none =>
        rw [hlook] at h
        simp only [List.mem_singleton] at h
        subst h
        exact ⟨[], k0, as_, by simp, rfl, hlook⟩
      | some av =>
        rw [hlook] at h
        obtain ⟨q', k', es', hps, hget, hlk⟩ := missingPaths_shape (pre ++ [k0]) tv av p h
        refine ⟨k0 :: q', k', es', ?_, ?_, hlk⟩
        · rw [hps]
          simp
        · rw [getSub_cons, (getItem_map_ok as_ k0 av).mpr hlook]
          exact hget
    · exact missingPathsList_shape pre rest as_ p h
end

theorem missingPaths_antichain (t a : Doc) (p1 p2 : List String)
    (h1 : p1 ∈ missingPaths [] t a) (h2 : p2 ∈ missingPaths [] t a) :
    ¬ listIsPre p1 p2.dropLast := by
  obtain ⟨q1, k1, es1, hp1, hg1, hl1⟩ := missingPaths_shape [] t a p1 h1
  obtain ⟨q2, k2, es2, hp2, hg2, hl2⟩ := missingPaths_shape [] t a p2 h2
  rw [List.nil_append] at hp1 hp2
  subst hp1
  subst hp2
  rw [dropLast_append_single]
  rintro ⟨r, hr⟩
  rw [hr, getSub_append] at hg2
  have hx : getSub a (q1 ++ [k1]) = .error (.keyError k1) := by
    rw [getSub_append, hg1]
    show getSub (Doc.map es1) [k1] = .error (.keyError k1)
    rw [getSub_cons]
    simp [getItem, hl1, Except.bind]
  rw [hx] at hg2
  exact Except.noConfusion hg2

theorem missingPaths_ne_nil (t a : Doc) (p : List String)
    (hp : p ∈ missingPaths [] t a) : p ≠ [] := by
  obtain ⟨q, k, es, hps, _, _⟩ := missingPaths_shape [] t a p hp
  rw [List.nil_append] at hps
  subst hps
  simp

theorem missingPaths_parent (t a : Doc) (p : List String)
    (hp : p ∈ missingPaths [] t a) : ∃ es, getSub a p.dropLast = .ok (.map es) := by
  obtain ⟨q, k, es, hps, hg, _⟩ := missingPaths_shape [] t a p hp
  rw [List.nil_append] at hps
  subst hps
  rw [dropLast_append_single]
  exact ⟨es, hg⟩

theorem applyMissing_cons (opt : List (String × Doc)) (p : List String)
    (rest : List (List String)) (a : Doc) :
    applyMissing opt (p :: rest) a =
      (match lookupKey opt (encodeDeepDiffStr p) with
       | none => .error (.validationError (encodeDeepDiffStr p))
       | some v => (setValuePy a (getParentToChildKeyList (encodeDeepDiffStr p)) v).bind
           (fun a2 => applyMissing opt rest a2)) := rfl

theorem applyMissing_ok (opt : List (String × Doc)) :
    ∀ (ps : List (List String)) (a : Doc),
    (∀ p ∈ ps, p ≠ []) →
    (∀ p ∈ ps, getParentToChildKeyList (encodeDeepDiffStr p) = p) →
    (∀ p ∈ ps, ∃ es, getSub a p.dropLast = .ok (.map es)) →
    (∀ p1 ∈ ps, ∀ p2 ∈ ps, ¬ listIsPre p1 p2.dropLast) →
    (∀ p ∈ ps, (lookupKey opt (encodeDeepDiffStr p)).isSome) →
    ∃ a2, applyMissing opt ps a = .ok a2 := by
  intro ps
  induction ps with
  | nil =>
    intro a _ _ _ _ _
    exact ⟨a, rfl⟩
  | cons p rest ih =>
    intro a hne hf hpar hanti hl
    obtain ⟨v, hv⟩ := Option.isSome_iff_exists.mp (hl p (List.mem_cons_self _ _))
    have hdec := hf p (List.mem_cons_self _ _)
    have hnep := hne p (List.mem_cons_self _ _)
    obtain ⟨es, hes⟩ := hpar p (List.mem_cons_self _ _)
    have hplast : p.dropLast ++ [p.getLast hnep] = p := List.dropLast_append_getLast hnep
    obtain ⟨a1, hset⟩ := setValuePy_ok_of_parent p.dropLast (p.getLast hnep) v a es hes
    rw [hplast] at hset
    have happ : applyMissing opt (p :: rest) a = applyMissing opt rest a1 := by
      rw [applyMissing_cons]
      simp only [hv, hdec, hset]
      rfl
    rw [happ]
    apply ih a1
    · exact fun p2 h2 => hne p2 (List.mem_cons_of_mem _ h2)
    · exact fun p2 h2 => hf p2 (List.mem_cons_of_mem _ h2)
    · intro p2 h2
      obtain ⟨es2, hes2⟩ := hpar p2 (List.mem_cons_of_mem _ h2)
      exact setValuePy_preserves_mapAt p a a1 v p2.dropLast es2 hset
        (hanti p (List.mem_cons_self _ _) p2 (List.mem_cons_of_mem _ h2)) hes2
    · exact fun p1 h1 p2 h2 => hanti p1 (List.mem_cons_of_mem _ h1) p2 (List.mem_cons_of_mem _ h2)
    · exact fun p2 h2 => hl p2 (List.mem_cons_of_mem _ h2)

theorem applyMissing_err (opt : List (String × Doc)) :
    ∀ (ps : List (List String)) (a : Doc) (p : List String),
    (∀ p' ∈ ps, p' ≠ []) →
    (∀ p' ∈ ps, getParentToChildKeyList (encodeDeepDiffStr p') = p') →
    (∀ p' ∈ ps, ∃ es, getSub a p'.dropLast = .ok (.map es)) →
    (∀ p1 ∈ ps, ∀ p2 ∈ ps, ¬ listIsPre p1 p2.dropLast) →
    ps.find? (fun p' => (lookupKey opt (encodeDeepDiffStr p')).isNone) = some p →
    applyMissing opt ps a = .error (.validationError (encodeDeepDiffStr p)) := by
  intro ps
  induction ps with
  | nil =>
    intro a p _ _ _ _ hfind
    simp at hfind
  | cons q rest ih =>
    intro a p hne hf hpar hanti hfind
    cases hlq : lookupKey opt (encodeDeepDiffStr q) with
    | none =>
      rw [List.find?_cons] at hfind
      simp only [hlq, Option.isNone_none, if_true] at hfind
      injection hfind with hqp
      subst hqp
      rw [applyMissing_cons]
      simp only [hlq]
    | some v =>
      rw [List.find?_cons] at hfind
      simp only [hlq, Option.isNone_some, Bool.false_eq_true, if_false] at hfind
      have hdec := hf q (List.mem_cons_self _ _)
      have hneq := hne q (List.mem_cons_self _ _)
      obtain ⟨es, hes⟩ := hpar q (List.mem_cons_self _ _)
      have hqlast : q.dropLast ++ [q.getLast hneq] = q := List.dropLast_append_getLast hneq
      obtain ⟨a1, hset⟩ := setValuePy_ok_of_parent q.dropLast (q.getLast hneq) v a es hes
      rw [hqlast] at hset
      have happ : applyMissing opt (q :: rest) a = applyMissing opt rest a1 := by
        rw [applyMissing_cons]
        simp only [hlq, hdec, hset]
        rfl
      rw [happ]
      apply ih a1 p
      · exact fun p2 h2 => hne p2 (List.mem_cons_of_mem _ h2)
      · exact fun p2 h2 => hf p2 (List.mem_cons_of_mem _ h2)
      · intro p2 h2
        obtain ⟨es2, hes2⟩ := hpar p2 (List.mem_cons_of_mem _ h2)
        exact setValuePy_preserves_mapAt q a a1 v p2.dropLast es2 hset
          (hanti q (List.mem_cons_self _ _) p2 (List.mem_cons_of_mem _ h2)) hes2
      · exact fun p1 h1 p2 h2 => hanti p1 (List.mem_cons_of_mem _ h1) p2 (List.mem_cons_of_mem _ h2)
      · exact hfind

theorem applyMissing_preserves_getSub (opt : List (String × Doc)) :
    ∀ (ps : List (List String)) (a a' : Doc) (p : List String) (w : Doc),
    (∀ p' ∈ ps, getParentToChildKeyList (encodeDeepDiffStr p') = p') →
    (∀ p2 ∈ ps, ¬ listIsPre p2 p ∧ ¬ listIsPre p p2) →
    applyMissing opt ps a = .ok a' → getSub a p = .ok w → getSub a' p = .ok w := by
  intro ps
  induction ps with
  | nil =>
    intro a a' p w _ _ hok hga
    replace hok : Except.ok a = Except.ok a' := hok
    injection hok with hh
    subst hh
    exact hga
  | cons q rest ih =>
    intro a a' p w hf hcomp hok hga
    rw [applyMissing_cons] at hok
    cases hlq : lookupKey opt (encodeDeepDiffStr q) with
    | none =>
      simp only [hlq] at hok
      exact Except.noConfusion hok
    | some v =>
      simp only [hlq] at hok
      rw [hf q (List.mem_cons_self _ _)] at hok
      cases hset : setValuePy a q v with
      | error e =>
        rw [hset] at hok
        exact Except.noConfusion hok
      | ok a1 =>
        rw [hset] at hok
        replace hok : applyMissing opt rest a1 = .ok a' := hok
        have hcq := hcomp q (List.mem_cons_self _ _)
        have hga1 : getSub a1 p = .ok w := by
          rw [setValuePy_preserves_getSub q a a1 v p hset hcq.1 hcq.2]
          exact hga
        exact ih a1 a' p w (fun p' h' => hf p' (List.mem_cons_of_mem _ h'))
          (fun p2 h2 => hcomp p2 (List.mem_cons_of_mem _ h2)) hok hga1

theorem applyMissing_sets_value (opt : List (String × Doc)) :
    ∀ (ps : List (List String)) (a a' : Doc) (p : List String) (v : Doc),
    (∀ p' ∈ ps, p' ≠ []) →
    (∀ p' ∈ ps, getParentToChildKeyList (encodeDeepDiffStr p') = p') →
    (∀ p1 ∈ ps, ∀ p2 ∈ ps, ¬ listIsPre p1 p2.dropLast) →
    p ∈ ps → lookupKey opt (encodeDeepDiffStr p) = some v →
    applyMissing opt ps a = .ok a' →
    getSub a' p = .ok v := by
  intro ps
  induction ps with
  | nil =>
    intro a a' p v _ _ _ hp
    simp at hp
  | cons q rest ih =>
    intro a a' p v hne hf hanti hp hv hok
    rw [applyMissing_cons] at hok
    cases hlq : lookupKey opt (encodeDeepDiffStr q) with
    | none =>
      simp only [hlq] at hok
      exact Except.noConfusion hok
    | some vq =>
      simp only [hlq] at hok
      rw [hf q (List.mem_cons_self _ _)] at hok
      cases hset : setValuePy a q vq with
      | error e =>
        rw [hset] at hok
        exact Except.noConfusion hok
      | ok a1 =>
        rw [hset] at hok
        replace hok : applyMissing opt rest a1 = .ok a' := hok
        by_cases hpr : p ∈ rest
        · exact ih a1 a' p v (fun p2 h2 => hne p2 (List.mem_cons_of_mem _ h2))
            (fun p2 h2 => hf p2 (List.mem_cons_of_mem _ h2))
            (fun p1 h1 p2 h2 => hanti p1 (List.mem_cons_of_mem _ h1) p2 (List.mem_cons_of_mem _ h2))
            hpr hv hok
        · have hpq : p = q := by
            rcases List.mem_cons.mp hp with h | h
            · exact h
            · exact absurd h hpr
          subst hpq
          rw [hv] at hlq
          injection hlq with hvq
          subst hvq
          have hga1 : getSub a1 p = .ok v := setValuePy_getSub_self p a a1 v hset
          have hnep := hne p (List.mem_cons_self _ _)
          have hplast : p.dropLast ++ [p.getLast hnep] = p := List.dropLast_append_getLast hnep
          have hcomp : ∀ p2 ∈ rest, ¬ listIsPre p2 p ∧ ¬ listIsPre p p2 := by
            intro p2 h2
            have h2' : p2 ∈ p :: rest := List.mem_cons_of_mem _ h2
            have hne2 : p2 ≠ p := fun he => hpr (he ▸ h2)
            have hnep2 := hne p2 h2'
            have hp2last : p2.dropLast ++ [p2.getLast hnep2] = p2 := List.dropLast_append_getLast hnep2
            constructor
            · intro hple
              rw [← hplast] at hple
              rcases listIsPre_concat_cases p2 p.dropLast (p.getLast hnep) hple with he | hpre
              · rw [hplast] at he
                exact hne2 he
              · exact hanti p2 h2' p (List.mem_cons_self _ _) hpre
            · intro hple
              rw [← hp2last] at hple
              rcases listIsPre_concat_cases p p2.dropLast (p2.getLast hnep2) hple with he | hpre
              · rw [hp2last] at he
                exact hne2 he.symm
              · exact hanti p (List.mem_cons_self _ _) p2 h2' hpre
          exact applyMissing_preserves_getSub opt rest a1 a' p v
            (fun p' h' => hf p' (List.mem_cons_of_mem _ h')) hcomp hok hga1

/-- Claim C4 (amended): provided every deepdiff missing path decodes back to
itself through _get_parent_to_child_key_list (true for ordinary key names, but
not for keys that begin with a character of "root['" or end with one of "']"),
validate_and_fill_dict fails if and only if some missing path is not listed in
the optional defaults, and a "Key ... not found." failure names exactly such a
missing, unlisted deepdiff path string.  Without the decode proviso the
success half is false: a listed path whose decoding is corrupted can make the
default-setting step itself raise (see the counterexample). -/
theorem validate_and_fill_dict_failure_characterization (t a : Doc) (opt : List (String × Doc))
    (hf : ∀ p ∈ missingPaths [] t a, getParentToChildKeyList (encodeDeepDiffStr p) = p) :
    ((∃ e, validateAndFillDict t a opt = .error e) ↔
      ∃ p ∈ missingPaths [] t a, lookupKey opt (encodeDeepDiffStr p) = none) ∧
    (∀ m, validateAndFillDict t a opt = .error (.validationError m) →
      ∃ p ∈ missingPaths [] t a, encodeDeepDiffStr p = m ∧ lookupKey opt m = none) := by
  have hne := fun p hp => missingPaths_ne_nil t a p hp
  have hpar := fun p hp => missingPaths_parent t a p hp
  have hanti := fun p1 h1 p2 h2 => missingPaths_antichain t a p1 p2 h1 h2
  constructor
  · constructor
    · rintro ⟨e, he⟩
      by_contra hno
      push_neg at hno
      have hl : ∀ p ∈ missingPaths [] t a, (lookupKey opt (encodeDeepDiffStr p)).isSome := by
        intro p hp
        cases hcase : lookupKey opt (encodeDeepDiffStr p) with
        | none => exact absurd hcase (hno p hp)
        | some v => rfl
      obtain ⟨a2, ha2⟩ := applyMissing_ok opt (missingPaths [] t a) a hne hf hpar hanti hl
      rw [validateAndFillDict, ha2] at he
      exact Except.noConfusion he
    · rintro ⟨p, hp, hnone⟩
      have hfindsome : ((missingPaths [] t a).find?
          (fun p' => (lookupKey opt (encodeDeepDiffStr p')).isNone)).isSome := by
        rw [List.find?_isSome]
        exact ⟨p, hp, by simp [hnone]⟩
      obtain ⟨p0, hp0⟩ := Option.isSome_iff_exists.mp hfindsome
      refine ⟨.validationError (encodeDeepDiffStr p0), ?_⟩
      rw [validateAndFillDict]
      exact applyMissing_err opt (missingPaths [] t a) a p0 hne hf hpar hanti hp0
  · intro m hm
    cases hfind : (missingPaths [] t a).find?
        (fun p' => (lookupKey opt (encodeDeepDiffStr p')).isNone) with
    | none =>
      have hl : ∀ p ∈ missingPaths [] t a, (lookupKey opt (encodeDeepDiffStr p)).isSome := by
        intro p hp
        have hnp := List.find?_eq_none.mp hfind p hp
        cases hcase : lookupKey opt (encodeDeepDiffStr p) with
        | none => exact absurd (by simp [hcase]) hnp
        | some v => rfl
      obtain ⟨a2, ha2⟩ := applyMissing_ok opt (missingPaths [] t a) a hne hf hpar hanti hl
      rw [validateAndFillDict, ha2] at hm
      exact Except.noConfusion hm
    | some p0 =>
      have herr := applyMissing_err opt (missingPaths [] t a) a p0 hne hf hpar hanti hfind
      rw [validateAndFillDict, herr] at hm
      injection hm with hmm
      injection hmm with hmm2
      have hp0mem := List.mem_of_find?_eq_some hfind
      have hp0pred := List.find?_some hfind
      refine ⟨p0, hp0mem, hmm2, ?_⟩
      rw [← hmm2]
      simpa using hp0pred

/-- Claim C4 counterexample: a template and actual document whose single
deepdiff missing path root['ta']['b'] is listed in the optional defaults, yet
validate_and_fill_dict still fails — the decoder corrupts the path to
["a", "b"] and setting the default raises KeyError("a").  This refutes the
claim's "when every missing path is listed in optional_defaults the call
succeeds". -/
theorem validate_optional_listed_can_still_fail :
    missingPaths [] (Doc.map [("ta", Doc.map [("b", Doc.str "")])])
      (Doc.map [("ta", Doc.map [])]) = [["ta", "b"]] ∧
    encodeDeepDiffStr ["ta", "b"] = "root['ta']['b']" ∧
    lookupKey [("root['ta']['b']", Doc.str "")] "root['ta']['b']" = some (Doc.str "") ∧
    getParentToChildKeyList "root['ta']['b']" = ["a", "b"] ∧
    validateAndFillDict (Doc.map [("ta", Doc.map [("b", Doc.str "")])])
      (Doc.map [("ta", Doc.map [])]) [("root['ta']['b']", Doc.str "")] =
      .error (.keyError "a") :=
  ⟨rfl, rfl, rfl, by decide, rfl⟩

theorem validate_and_fill_dict_failure_characterization_witness :
    (∀ p ∈ missingPaths [] (Doc.map [("x", Doc.str "")]) (Doc.map []),
      getParentToChildKeyList (encodeDeepDiffStr p) = p) ∧
    ((∃ e, validateAndFillDict (Doc.map [("x", Doc.str "")]) (Doc.map []) [] = .error e) ↔
      ∃ p ∈ missingPaths [] (Doc.map [("x", Doc.str "")]) (Doc.map []),
        lookupKey [] (encodeDeepDiffStr p) = none) :=
  ⟨by decide, (validate_and_fill_dict_failure_characterization
    (Doc.map [("x", Doc.str "")]) (Doc.map []) [] (by decide)).1⟩

/-- Claim C5 (code evaluation at the failing input): a key present in the
template as a nested mapping but present in the actual document as a
non-mapping yields no deepdiff dictionary_item_removed entry (deepdiff files
it under type_changes, which validate_and_fill_dict never reads), so the call
silently accepts the document instead of reporting a violation. -/
theorem type_mismatch_silently_accepted :
    missingPaths [] (Doc.map [("node", Doc.map [("hostname", Doc.str "")])])
      (Doc.map [("node", Doc.str "x")]) = [] ∧
    validateAndFillDict (Doc.map [("node", Doc.map [("hostname", Doc.str "")])])
      (Doc.map [("node", Doc.str "x")]) [] = .ok (Doc.map [("node", Doc.str "x")]) :=
  ⟨rfl, rfl⟩

/-- Claim C6 (amended): when validate_and_fill_dict succeeds and every
deepdiff missing path decodes back to itself, each missing path listed in the
optional defaults ends up carrying its listed default value in the resulting
document at exactly that path.  (The code never needs to create intermediate
mappings: deepdiff only reports a path whose parent chain exists in the
actual document.)  For a decode-corrupting key name the default lands under
the corrupted key instead — see the counterexample. -/
theorem validate_and_fill_dict_sets_default_at_decoded_path (t a a' : Doc)
    (opt : List (String × Doc)) (p : List String) (v : Doc)
    (hf : ∀ q ∈ missingPaths [] t a, getParentToChildKeyList (encodeDeepDiffStr q) = q)
    (hp : p ∈ missingPaths [] t a)
    (hv : lookupKey opt (encodeDeepDiffStr p) = some v)
    (hok : validateAndFillDict t a opt = .ok a') :
    getSub a' p = .ok v := by
  have hne := fun q hq => missingPaths_ne_nil t a q hq
  have hanti := fun p1 h1 p2 h2 => missingPaths_antichain t a p1 p2 h1 h2
  exact applyMissing_sets_value opt (missingPaths [] t a) a a' p v hne hf hanti hp hv hok

/-- Claim C6 counterexample: the optional default for top-level key "timeout"
(deepdiff path root['timeout']) is written under the corrupted key "imeout",
not at the named path, because the decoder strips the leading "t". -/
theorem optional_default_written_under_corrupted_key :
    missingPaths [] (Doc.map [("timeout", Doc.str "")]) (Doc.map []) = [["timeout"]] ∧
    validateAndFillDict (Doc.map [("timeout", Doc.str "")]) (Doc.map [])
      [("root['timeout']", Doc.str "30")] = .ok (Doc.map [("imeout", Doc.str "30")]) ∧
    lookupKey [("imeout", Doc.str "30")] "timeout" = none :=
  ⟨rfl, rfl, rfl⟩

theorem validate_and_fill_dict_sets_default_at_decoded_path_witness :
    validateAndFillDict joinNodeDeploymentTemplate
      (Doc.map [
        ("mode", Doc.str "grass/samba"),
        ("master", Doc.map [("hostname", Doc.str "m0")]),
        ("node", Doc.map [
          ("hostname", Doc.str "n1"),
          ("public_ip_address", Doc.str "1.2.3.4"),
          ("private_ip_address", Doc.str "10.0.0.1"),
          ("resources", Doc.map [("cpu", Doc.str "4"), ("memory", Doc.str "8")])]),
        ("connection", Doc.map [("api_server", Doc.map [("port", Doc.str "9090")])])])
      [("root['node']['resources']['gpu']", Doc.str "")] =
      .ok (Doc.map [
        ("mode", Doc.str "grass/samba"),
        ("master", Doc.map [("hostname", Doc.str "m0")]),
        ("node", Doc.map [
          ("hostname", Doc.str "n1"),
          ("public_ip_address", Doc.str "1.2.3.4"),
          ("private_ip_address", Doc.str "10.0.0.1"),
          ("resources", Doc.map [("cpu", Doc.str "4"), ("memory", Doc.str "8"),
            ("gpu", Doc.str "")])]),
        ("connection", Doc.map [("api_server", Doc.map [("port", Doc.str "9090")])])]) ∧
    getSub (Doc.map [
        ("mode", Doc.str "grass/samba"),
        ("master", Doc.map [("hostname", Doc.str "m0")]),
        ("node", Doc.map [
          ("hostname", Doc.str "n1"),
          ("public_ip_address", Doc.str "1.2.3.4"),
          ("private_ip_address", Doc.str "10.0.0.1"),
          ("resources", Doc.map [("cpu", Doc.str "4"), ("memory", Doc.str "8"),
            ("gpu", Doc.str "")])]),
        ("connection", Doc.map [("api_server", Doc.map [("port", Doc.str "9090")])])])
      ["node", "resources", "gpu"] = .ok (Doc.str "") :=
  ⟨rfl, validate_and_fill_dict_sets_default_at_decoded_path joinNodeDeploymentTemplate
    (Doc.map [
      ("mode", Doc.str "grass/samba"),
      ("master", Doc.map [("hostname", Doc.str "m0")]),
      ("node", Doc.map [
        ("hostname", Doc.str "n1"),
        ("public_ip_address", Doc.str "1.2.3.4"),
        ("private_ip_address", Doc.str "10.0.0.1"),
        ("resources", Doc.map [("cpu", Doc.str "4"), ("memory", Doc.str "8")])]),
      ("connection", Doc.map [("api_server", Doc.map [("port", Doc.str "9090")])])])
    (Doc.map [
      ("mode", Doc.str "grass/samba"),
      ("master", Doc.map [("hostname", Doc.str "m0")]),
      ("node", Doc.map [
        ("hostname", Doc.str "n1"),
        ("public_ip_address", Doc.str "1.2.3.4"),
        ("private_ip_address", Doc.str "10.0.0.1"),
        ("resources", Doc.map [("cpu", Doc.str "4"), ("memory", Doc.str "8"),
          ("gpu", Doc.str "")])]),
      ("connection", Doc.map [("api_server", Doc.map [("port", Doc.str "9090")])])])
    [("root['node']['resources']['gpu']", Doc.str "")]
    ["node", "resources", "gpu"] (Doc.str "")
    (by decide) (by decide) rfl rfl⟩

theorem leftTrim_cons_of_mem (chars : List Char) (c : Char) (l : List Char)
    (h : chars.contains c = true) : leftTrim chars (c :: l) = leftTrim chars l := by
  have hm : c ∈ chars := by simpa using h
  simp [leftTrim, List.dropWhile_cons, hm]

theorem leftTrim_cons_of_not_mem (chars : List Char) (c : Char) (l : List Char)
    (h : chars.contains c = false) : leftTrim chars (c :: l) = c :: l := by
  have hm : c ∉ chars := by simpa using h
  simp [leftTrim, List.dropWhile_cons, hm]

theorem leftTrim_append_of_all_mem (chars : List Char) (xs ys : List Char)
    (h : ∀ c ∈ xs, chars.contains c = true) :
    leftTrim chars (xs ++ ys) = leftTrim chars ys := by
  induction xs with
  | nil => rfl
  | cons c xs' ih =>
    rw [List.cons_append, leftTrim_cons_of_mem chars c _ (h c (List.mem_cons_self _ _))]
    exact ih (fun c2 hc2 => h c2 (List.mem_cons_of_mem _ hc2))

theorem leftTrim_append (chars : List Char) (xs ys : List Char) :
    leftTrim chars (xs ++ ys) =
      (if leftTrim chars xs = [] then leftTrim chars ys else leftTrim chars xs ++ ys) := by
  induction xs with
  | nil => simp [leftTrim]
  | cons c xs' ih =>
    cases h : chars.contains c with
    | true =>
      rw [List.cons_append, leftTrim_cons_of_mem chars c _ h, ih,
        leftTrim_cons_of_mem chars c _ h]
    | false =>
      rw [List.cons_append, leftTrim_cons_of_not_mem chars c _ h,
        leftTrim_cons_of_not_mem chars c _ h]
      simp

theorem rightTrim_concat_of_mem (chars : List Char) (c : Char) (l : List Char)
    (h : chars.contains c = true) : rightTrim chars (l ++ [c]) = rightTrim chars l := by
  simp only [rightTrim, List.reverse_append, List.reverse_cons, List.reverse_nil,
    List.nil_append, List.cons_append]
  rw [leftTrim_cons_of_mem chars c _ h]

theorem rightTrim_concat_of_not_mem (chars : List Char) (c : Char) (l : List Char)
    (h : chars.contains c = false) : rightTrim chars (l ++ [c]) = l ++ [c] := by
  simp only [rightTrim, List.reverse_append, List.reverse_cons, List.reverse_nil,
    List.nil_append, List.cons_append]
  rw [leftTrim_cons_of_not_mem chars c _ h]
  simp

theorem length_leftTrim_le (chars : List Char) (l : List Char) :
    (leftTrim chars l).length ≤ l.length := by
  induction l with
  | nil => simp [leftTrim]
  | cons c l' ih =>
    cases h : chars.contains c with
    | true =>
      rw [leftTrim_cons_of_mem chars c _ h]
      exact Nat.le_trans ih (by simp)
    | false =>
      rw [leftTrim_cons_of_not_mem chars c _ h]

theorem length_rightTrim_le (chars : List Char) (l : List Char) :
    (rightTrim chars l).length ≤ l.length := by
  have h := length_leftTrim_le chars l.reverse
  simpa [rightTrim] using h

theorem core_length_le (w : List Char) :
    (pyStrip stripSetEnd (pyStrip stripSetRoot (w ++ stripSetEnd))).length ≤ w.length := by
  by_cases hz : leftTrim stripSetRoot w = []
  · have h1 : leftTrim stripSetRoot (w ++ stripSetEnd) = leftTrim stripSetRoot stripSetEnd := by
      rw [leftTrim_append]
      simp [hz]
    have h3 : pyStrip stripSetRoot (w ++ stripSetEnd) = [']'] := by
      rw [pyStrip, h1]
      decide
    rw [h3]
    have h4 : pyStrip stripSetEnd [']'] = [] := by decide
    rw [h4]
    simp
  · have h1 : leftTrim stripSetRoot (w ++ stripSetEnd) = leftTrim stripSetRoot w ++ stripSetEnd := by
      rw [leftTrim_append]
      simp [hz]
    have hlenz : (leftTrim stripSetRoot w).length ≤ w.length := length_leftTrim_le _ _
    have hsplit1 : leftTrim stripSetRoot w ++ stripSetEnd =
        (leftTrim stripSetRoot w ++ [quoteChar]) ++ [']'] := by
      rw [show stripSetEnd = [quoteChar, ']'] from by decide]
      simp
    have h2 : pyStrip stripSetRoot (w ++ stripSetEnd) = leftTrim stripSetRoot w ++ stripSetEnd := by
      rw [pyStrip, h1, hsplit1, rightTrim_concat_of_not_mem _ _ _ (by decide), ← hsplit1]
    rw [h2]
    by_cases hz2 : leftTrim stripSetEnd (leftTrim stripSetRoot w) = []
    · have h3 : leftTrim stripSetEnd (leftTrim stripSetRoot w ++ stripSetEnd) =
          leftTrim stripSetEnd stripSetEnd := by
        rw [leftTrim_append]
        simp [hz2]
      have h4 : leftTrim stripSetEnd stripSetEnd = [] := by decide
      rw [pyStrip, h3, h4]
      simp [rightTrim, leftTrim]
    · have h3 : leftTrim stripSetEnd (leftTrim stripSetRoot w ++ stripSetEnd) =
          leftTrim stripSetEnd (leftTrim stripSetRoot w) ++ stripSetEnd := by
        rw [leftTrim_append]
        simp [hz2]
      have hsplit2 : leftTrim stripSetEnd (leftTrim stripSetRoot w) ++ stripSetEnd =
          (leftTrim stripSetEnd (leftTrim stripSetRoot w) ++ [quoteChar]) ++ [']'] := by
        rw [show stripSetEnd = [quoteChar, ']'] from by decide]
        simp
      have h4 : rightTrim stripSetEnd
          (leftTrim stripSetEnd (leftTrim stripSetRoot w) ++ stripSetEnd) =
          rightTrim stripSetEnd (leftTrim stripSetEnd (leftTrim stripSetRoot w)) := by
        rw [hsplit2, rightTrim_concat_of_mem _ _ _ (by decide),
          rightTrim_concat_of_mem _ _ _ (by decide)]
      rw [pyStrip, h3, h4]
      calc (rightTrim stripSetEnd (leftTrim stripSetEnd (leftTrim stripSetRoot w))).length
          ≤ (leftTrim stripSetEnd (leftTrim stripSetRoot w)).length := length_rightTrim_le _ _
        _ ≤ (leftTrim stripSetRoot w).length := length_leftTrim_le _ _
        _ ≤ w.length := hlenz

theorem core_length_concat_le (w : List Char) (c : Char)
    (hc : stripSetEnd.contains c = true) :
    (pyStrip stripSetEnd (pyStrip stripSetRoot ((w ++ [c]) ++ stripSetEnd))).length ≤
      w.length := by
  have hcc : c = quoteChar ∨ c = ']' := by
    rw [show stripSetEnd = [quoteChar, ']'] from by decide] at hc
    simpa using hc
  by_cases hz : leftTrim stripSetRoot w = []
  · have h1 : leftTrim stripSetRoot ((w ++ [c]) ++ stripSetEnd) =
        leftTrim stripSetRoot ([c] ++ stripSetEnd) := by
      rw [List.append_assoc, leftTrim_append]
      simp [hz]
    rcases hcc with rfl | rfl
    · have h3 : pyStrip stripSetRoot ((w ++ [quoteChar]) ++ stripSetEnd) = [']'] := by
        rw [pyStrip, h1]
        decide
      rw [h3]
      have h4 : pyStrip stripSetEnd [']'] = [] := by decide
      rw [h4]
      simp
    · have h3 : pyStrip stripSetRoot ((w ++ [']']) ++ stripSetEnd) = [']'] ++ stripSetEnd := by
        rw [pyStrip, h1]
        decide
      rw [h3]
      have h4 : pyStrip stripSetEnd ([']'] ++ stripSetEnd) = [] := by decide
      rw [h4]
      simp
  · have h1 : leftTrim stripSetRoot ((w ++ [c]) ++ stripSetEnd) =
        leftTrim stripSetRoot w ++ ([c] ++ stripSetEnd) := by
      rw [List.append_assoc, leftTrim_append]
      simp [hz]
    have hlenz : (leftTrim stripSetRoot w).length ≤ w.length := length_leftTrim_le _ _
    have hsplit1 : leftTrim stripSetRoot w ++ ([c] ++ stripSetEnd) =
        (((leftTrim stripSetRoot w ++ [c]) ++ [quoteChar]) ++ [']']) := by
      rw [show stripSetEnd = [quoteChar, ']'] from by decide]
      simp
    have h2 : pyStrip stripSetRoot ((w ++ [c]) ++ stripSetEnd) =
        leftTrim stripSetRoot w ++ ([c] ++ stripSetEnd) := by
      rw [pyStrip, h1, hsplit1, rightTrim_concat_of_not_mem _ _ _ (by decide), ← hsplit1]
    rw [h2]
    by_cases hz2 : leftTrim stripSetEnd (leftTrim stripSetRoot w) = []
    · have h3 : leftTrim stripSetEnd (leftTrim stripSetRoot w ++ ([c] ++ stripSetEnd)) =
          leftTrim stripSetEnd ([c] ++ stripSetEnd) := by
        rw [leftTrim_append]
        simp [hz2]
      have h4 : leftTrim stripSetEnd ([c] ++ stripSetEnd) = [] := by
        rw [show ([c] ++ stripSetEnd) = c :: stripSetEnd from rfl,
          leftTrim_cons_of_mem _ _ _ hc]
        decide
      rw [pyStrip, h3, h4]
      simp [rightTrim, leftTrim]
    · have h3 : leftTrim stripSetEnd (leftTrim stripSetRoot w ++ ([c] ++ stripSetEnd)) =
          leftTrim stripSetEnd (leftTrim stripSetRoot w) ++ ([c] ++ stripSetEnd) := by
        rw [leftTrim_append]
        simp [hz2]
      have hsplit2 : leftTrim stripSetEnd (leftTrim stripSetRoot w) ++ ([c] ++ stripSetEnd) =
          (((leftTrim stripSetEnd (leftTrim stripSetRoot w) ++ [c]) ++ [quoteChar]) ++ [']']) := by
        rw [show stripSetEnd = [quoteChar, ']'] from by decide]
        simp
      have h4 : rightTrim stripSetEnd
          (leftTrim stripSetEnd (leftTrim stripSetRoot w) ++ ([c] ++ stripSetEnd)) =
          rightTrim stripSetEnd (leftTrim stripSetEnd (leftTrim stripSetRoot w)) := by
        rw [hsplit2, rightTrim_concat_of_mem _ _ _ (by decide),
          rightTrim_concat_of_mem _ _ _ (by decide), rightTrim_concat_of_mem _ _ _ hc]
      rw [pyStrip, h3, h4]
      calc (rightTrim stripSetEnd (leftTrim stripSetEnd (leftTrim stripSetRoot w))).length
          ≤ (leftTrim stripSetEnd (leftTrim stripSetRoot w)).length := length_rightTrim_le _ _
        _ ≤ (leftTrim stripSetRoot w).length := length_leftTrim_le _ _
        _ ≤ w.length := hlenz

theorem splitOnAux_ne_nil (sep : List Char) (fuel : Nat) (l : List Char) :
    splitOnAux sep fuel l ≠ [] := by
  cases fuel with
  | zero => simp [splitOnAux]
  | succ f => cases h : findSub sep l <;> simp [splitOnAux, h]

theorem splitOnAux_singleton (sep : List Char) (fuel : Nat) (l x : List Char)
    (h : splitOnAux sep fuel l = [x]) : l = x := by
  cases fuel with
  | zero =>
    simp only [splitOnAux, List.cons.injEq, and_true] at h
    exact h
  | succ f =>
    cases hf : findSub sep l with
    | none =>
      simp only [splitOnAux, hf, List.cons.injEq, and_true] at h
      exact h
    | some i =>
      simp only [splitOnAux, hf, List.cons.injEq] at h
      exact absurd h.2 (splitOnAux_ne_nil sep f _)

theorem splitOnSeq_singleton (sep l x : List Char) (h : splitOnSeq sep l = [x]) : l = x := by
  rw [splitOnSeq] at h
  by_cases hs : sep.isEmpty
  · rw [if_pos hs] at h
    simpa using h
  · rw [if_neg hs] at h
    exact splitOnAux_singleton sep l.length l x h

/-- Claim C10: the deepdiff path decoder _get_parent_to_child_key_list
inverts the single-key encoding root['k'] only when k does not begin with a
character of "root['" and does not end with a character of "']" — whenever k
violates that, the decoded list differs from [k] (the strip calls eat into
the key).  Concretely, the top-level optional key "timeout" (encoded
root['timeout']) decodes to ["imeout"], so validate_and_fill_dict writes the
optional default under the corrupted key "imeout" instead of "timeout". -/
theorem path_decoder_corrupts_strippable_keys :
    (∀ (k : List Char) (c : Char), k ≠ [] →
      ((k.head? = some c ∧ stripSetRoot.contains c = true) ∨
       (k.getLast? = some c ∧ stripSetEnd.contains c = true)) →
      getParentToChildKeyListChars (encodeKeyChars k) ≠ [k]) ∧
    encodeDeepDiffStr ["timeout"] = "root['timeout']" ∧
    getParentToChildKeyList "root['timeout']" = ["imeout"] ∧
    validateAndFillDict (Doc.map [("timeout", Doc.str "")]) (Doc.map [])
      [("root['timeout']", Doc.str "60")] = .ok (Doc.map [("imeout", Doc.str "60")]) ∧
    getSub (Doc.map [("imeout", Doc.str "60")]) ["timeout"] =
      .error (.keyError "timeout") := by
  refine ⟨?_, by decide, by decide, rfl, rfl⟩
  intro k c hk hbad hdec
  rw [getParentToChildKeyListChars] at hdec
  have hstrip : pyStrip stripSetEnd (pyStrip stripSetRoot (encodeKeyChars k)) = k :=
    splitOnSeq_singleton pathSep _ k hdec
  rcases hbad with ⟨hhead, hc1⟩ | ⟨hlast, hc2⟩
  · obtain ⟨k', rfl⟩ : ∃ k', k = c :: k' := by
      cases k with
      | nil => simp at hhead
      | cons c0 k' =>
        simp only [List.head?_cons, Option.some.injEq] at hhead
        exact ⟨k', by rw [hhead]⟩
    have hEq1 : leftTrim stripSetRoot (encodeKeyChars (c :: k')) =
        leftTrim stripSetRoot (k' ++ stripSetEnd) := by
      rw [encodeKeyChars, leftTrim_append_of_all_mem stripSetRoot stripSetRoot _ (by decide),
        List.cons_append, leftTrim_cons_of_mem _ _ _ hc1]
    have hpy : pyStrip stripSetRoot (encodeKeyChars (c :: k')) =
        pyStrip stripSetRoot (k' ++ stripSetEnd) := by
      rw [pyStrip, pyStrip, hEq1]
    have hlen := core_length_le k'
    rw [← hpy, hstrip] at hlen
    simp only [List.length_cons] at hlen
    omega
  · obtain ⟨k0, rfl⟩ : ∃ k0, k = k0 ++ [c] := by
      rcases List.eq_nil_or_concat k with rfl | ⟨k0, c0, hk0⟩
      · exact absurd rfl hk
      · subst hk0
        rw [List.concat_eq_append] at hlast
        have h1 : (k0 ++ [c0]).getLast? = some c0 := by simp
        rw [h1] at hlast
        injection hlast with hc0
        exact ⟨k0, by rw [List.concat_eq_append, hc0]⟩
    have hEq1 : leftTrim stripSetRoot (encodeKeyChars (k0 ++ [c])) =
        leftTrim stripSetRoot ((k0 ++ [c]) ++ stripSetEnd) := by
      rw [encodeKeyChars, leftTrim_append_of_all_mem stripSetRoot stripSetRoot _ (by decide)]
    have hpy : pyStrip stripSetRoot (encodeKeyChars (k0 ++ [c])) =
        pyStrip stripSetRoot ((k0 ++ [c]) ++ stripSetEnd) := by
      rw [pyStrip, pyStrip, hEq1]
    have hlen := core_length_concat_le k0 c hc2
    rw [← hpy, hstrip] at hlen
    simp only [List.length_append, List.length_cons, List.length_nil] at hlen
    omega

theorem path_decoder_corrupts_strippable_keys_witness :
    ("timeout".toList ≠ [] ∧ "timeout".toList.head? = some 't' ∧
      stripSetRoot.contains 't' = true) ∧
    getParentToChildKeyListChars (encodeKeyChars "timeout".toList) ≠ ["timeout".toList] :=
  ⟨⟨by decide, by decide, by decide⟩,
   path_decoder_corrupts_strippable_keys.1 "timeout".toList 't' (by decide)
     (Or.inl ⟨by decide, by decide⟩)⟩

end Maro
